import Mathlib

/-!
Verification development for the multimodal transit routing core
(`src/core/routing.py`, `src/data/graph_loader.py`).

The Python source is shallowly embedded: machine floats for times and
distances become exact integers (every duration in the source is a
rounded whole number of seconds and every GTFS weight and headway an
integer), EPSG:3857 metric coordinates become
integer pairs (the projection produces metre-valued coordinates), the
Euclidean distance of shapely is modelled as the integer square root of the
squared distance, Python `round` is modelled exactly (round half to even),
dicts become association lists keyed by decidable equality, and the
`heapq` priority queue is modelled by its observable behaviour: popping
the lexicographically least `(priority, stop_id, shape_id)` tuple.
Unbounded `while` loops become fuel-indexed recursion returning `none`
when the fuel runs out (the source loops terminate on the graphs at hand,
and every theorem about a loop is conditioned on it having produced a
result).
-/

namespace MapApp

/-- Python `round(num / den)` for a positive denominator: round half to
even on the exact fraction. -/
def pyRound (num den : ℤ) : ℤ :=
  let f := num.fdiv den
  let r := num - f * den
  if 2 * r < den then f
  else if den < 2 * r then f + 1
  else if f % 2 = 0 then f else f + 1

/-- Squared Euclidean distance between two metric (EPSG:3857) points. -/
def dist2 (p q : ℤ × ℤ) : ℕ := ((p.1 - q.1)^2 + (p.2 - q.2)^2).toNat

/-- Heron/Newton iteration for the integer square root, with explicit
fuel (the iteration stops as soon as it no longer decreases). -/
def isqrtGo : ℕ → ℕ → ℕ → ℕ
  | 0, _, x => x
  | fuel + 1, n, x =>
    let y := (x + n / x) / 2
    if y < x then isqrtGo fuel n y else x

/-- Integer square root (floor). -/
def isqrt (n : ℕ) : ℕ :=
  if n ≤ 1 then n else isqrtGo n n (n / 2 + 1)

/-- Euclidean distance, modelled as the integer square root of `dist2`
(the shapely float distance, truncated to whole metres). -/
def eudist (p q : ℤ × ℤ) : ℤ := (isqrt (dist2 p q) : ℤ)

/-- Dict lookup: value of the first matching key. -/
def alGet {K V : Type} [DecidableEq K] : List (K × V) → K → Option V
  | [], _ => none
  | (k, v) :: rest, k' => if k' = k then some v else alGet rest k'

/-- Dict assignment: update in place, or append a fresh key. -/
def alSet {K V : Type} [DecidableEq K] : List (K × V) → K → V → List (K × V)
  | [], k, v => [(k, v)]
  | (k0, v0) :: rest, k, v =>
    if k0 = k then (k0, v) :: rest else (k0, v0) :: alSet rest k v

/-- Lexicographic comparison of char lists by code point: the string
comparison of Python. -/
def charListLt : List Char → List Char → Bool
  | [], [] => false
  | [], _ :: _ => true
  | _ :: _, [] => false
  | a :: as, b :: bs =>
    if a.toNat < b.toNat then true
    else if b.toNat < a.toNat then false
    else charListLt as bs

/-- String comparison of Python on the underlying character lists. -/
def strLtB (a b : String) : Bool := charListLt a.data b.data

abbrev QEntry : Type := ℤ × String × String

/-- Lexicographic order on `(priority_cost, node, shape_id)` tuples,
exactly the tuple comparison of Python (numbers, then strings by code
point). -/
def qLe (a b : QEntry) : Prop :=
  a.1 < b.1 ∨ (a.1 = b.1 ∧ (strLtB a.2.1 b.2.1 = true ∨ (a.2.1 = b.2.1 ∧
    (strLtB a.2.2 b.2.2 = true ∨ a.2.2 = b.2.2))))

instance qLeDecidable (a b : QEntry) : Decidable (qLe a b) := by
  unfold qLe
  infer_instance

/-- Pop the least `(priority, node, shape)` tuple: the observable
behaviour of `heapq.heappop` on the queue built by `heapq.heappush`. -/
def popMin : List QEntry → Option (QEntry × List QEntry)
  | [] => none
  | x :: xs =>
    match popMin xs with
    | none => some (x, xs)
    | some (m, rest) => if qLe x m then some (x, xs) else some (m, x :: rest)

abbrev SKey : Type := String × Option String

/-- An edge of the transit MultiDiGraph with the attributes set by
`add_adjacent_stops` / `add_walking_edges`.  A graph is its edge list in
insertion order. -/
structure Edge where
  src : String
  dst : String
  weight : ℤ
  shape_id : String
  frequency : ℤ
deriving DecidableEq, Repr

abbrev Graph : Type := List Edge

abbrev CostMap : Type := List (SKey × ℤ)

abbrev PrevMap : Type := List (SKey × SKey)

/-- Outgoing edges of a node: `graph.neighbors(u)` together with
`graph.get_edge_data(u, v).items()`, flattened in insertion order. -/
def outEdges (g : Graph) (u : String) : List Edge :=
  g.filter (fun e => e.src = u)

/-- Embedding of routing.py lines 769-772: the transfer penalty charged
when relaxing an edge of shape `nextShape` from a state arrived at via
`currentShape`.  Note the source compares shapes against Python `None`,
not against the walking sentinel. -/
def transferPenalty (currentShape nextShape : Option String) (frequency : ℤ) : ℤ :=
  if currentShape.isSome ∧ nextShape.isSome ∧ nextShape ≠ currentShape then frequency else 0

/-- The tentative cost of routing.py line 774:
`cost[(current, current_shape)] + weight + penalty`.  The popped state
always owns a cost entry in runs of the algorithm (a missing key would be
a `KeyError` in the source); `getD 0` is never exercised from `initState`. -/
def tentativeCost (cost : CostMap) (current currentShape : String) (e : Edge) : ℤ :=
  (alGet cost (current, some currentShape)).getD 0 + e.weight
    + transferPenalty (some currentShape) (some e.shape_id) e.frequency

/-- The mutable per-query state of the search: the `cost` dict, the
`previous` dict and the priority queue. -/
structure SearchState where
  cost : CostMap
  previous : PrevMap
  queue : List QEntry
deriving DecidableEq, Repr

/-- Relaxation of one outgoing edge (routing.py lines 762-782). -/
def relaxOne (h : String → ℤ) (restricted : List String) (current currentShape : String)
    (st : SearchState) (e : Edge) : SearchState :=
  if e.shape_id ∈ restricted then st
  else
    let pen := transferPenalty (some currentShape) (some e.shape_id) e.frequency
    let tent := tentativeCost st.cost current currentShape e
    let improve : Bool :=
      match alGet st.cost (e.dst, some e.shape_id) with
      | none => true
      | some c => decide (tent < c)
    if improve then
      ⟨alSet st.cost (e.dst, some e.shape_id) tent,
       alSet st.previous (e.dst, some e.shape_id) (current, some currentShape),
       st.queue ++ [(tent + (h e.dst + 2 * pen), e.dst, e.shape_id)]⟩
    else st

/-- Relax every outgoing edge of the popped node, left to right. -/
def relaxList (h : String → ℤ) (restricted : List String) (current currentShape : String) :
    SearchState → List Edge → SearchState
  | st, [] => st
  | st, e :: es =>
    relaxList h restricted current currentShape
      (relaxOne h restricted current currentShape st e) es

/-- The main loop (routing.py lines 746-782), fuel-indexed.  Returns the
final state and the `end_shape` (`none` when the queue drained without
reaching `dst`). -/
def searchLoop (g : Graph) (h : String → ℤ) (restricted : List String) (dst : String) :
    ℕ → SearchState → Option (SearchState × Option String)
  | 0, _ => none
  | fuel + 1, st =>
    match popMin st.queue with
    | none => some (st, none)
    | some (e, rest) =>
      if e.2.1 = dst then some (st, some e.2.2)
      else
        searchLoop g h restricted dst fuel
          (relaxList h restricted e.2.1 e.2.2 ⟨st.cost, st.previous, rest⟩
            (outEdges g e.2.1))

/-- Queue seeding in the virtual-origin case (routing.py lines 714-723).
The heuristic argument `h` stands for
the heuristic applied to the positions of node `n` and of `dst`. -/
def initVirtual (h : String → ℤ) : SearchState → List (String × ℤ) → SearchState
  | st, [] => st
  | st, (stop, wt) :: rest =>
    initVirtual h
      ⟨alSet st.cost (stop, some "walking") wt,
       alSet st.previous (stop, some "walking") ("Real_Start", none),
       st.queue ++ [(wt + h stop, stop, "walking")]⟩ rest

/-- Queue seeding in the stop-origin case (routing.py lines 725-741):
the initial cost of each outgoing edge is `weight + frequency`. -/
def initStop (h : String → ℤ) (restricted : List String) (src : String) :
    SearchState → List Edge → SearchState
  | st, [] => st
  | st, e :: rest =>
    if e.shape_id ∈ restricted then initStop h restricted src st rest
    else
      let tent := e.weight + e.frequency
      initStop h restricted src
        ⟨alSet st.cost (e.dst, some e.shape_id) tent,
         alSet st.previous (e.dst, some e.shape_id) (src, none),
         st.queue ++ [(tent + h e.dst, e.dst, e.shape_id)]⟩ rest

/-- The local variable `src` after line 715: the sentinel when walking
entries are given. -/
def effSrc (src : String) (swe : List (String × ℤ)) : String :=
  if swe.isEmpty then src else "Real_Start"

/-- Initial search state. -/
def initState (g : Graph) (src : String) (swe : List (String × ℤ))
    (restricted : List String) (h : String → ℤ) : SearchState :=
  if swe.isEmpty then initStop h restricted src ⟨[], [], []⟩ (outEdges g src)
  else initVirtual h ⟨[], [], []⟩ swe

/-- Initialization plus main loop. -/
def dijkstraSearch (g : Graph) (src dst : String) (swe : List (String × ℤ))
    (restricted : List String) (h : String → ℤ) (fuel : ℕ) :
    Option (SearchState × Option String) :=
  searchLoop g h restricted dst fuel (initState g src swe restricted h)

/-- Path reconstruction (routing.py lines 788-795): follow `previous`
back from the destination state, then append `(src, None)` and reverse
(the reversal is built into the accumulator). -/
def reconstructPath (prev : PrevMap) (srcSt : SKey) : ℕ → SKey → List SKey → Option (List SKey)
  | 0, _, _ => none
  | fuel + 1, cur, acc =>
    match alGet prev cur with
    | none => some (srcSt :: acc)
    | some p => reconstructPath prev srcSt fuel p (cur :: acc)

/-- Embedding of `RouteService.dijkstra_transit`: returns the
`(path, total_cost)` pair, `([], none)` when the destination was never
reached, and `none` only on fuel exhaustion (the source loops forever or
terminates instead). -/
def dijkstraTransit (g : Graph) (src dst : String) (swe : List (String × ℤ))
    (restricted : List String) (h : String → ℤ) (fuel : ℕ) :
    Option (List SKey × Option ℤ) :=
  match dijkstraSearch g src dst swe restricted h fuel with
  | none => none
  | some (_, none) => some ([], none)
  | some (st, some es) =>
    match reconstructPath st.previous (effSrc src swe, none)
        (st.previous.length + 1) (dst, some es) [] with
    | none => none
    | some path => some (path, alGet st.cost (dst, some es))

/-- Modelled from the spec: a shape value names a real transit line when it
is neither the origin sentinel `NONE` nor the `WALK` marker (the source
uses the string walking for walk arrivals). -/
def specIsRealLine : Option String → Bool
  | none => false
  | some s => s != "walking"

/-- Modelled from the spec: the transfer-penalty rule of section 4.4 —
`p = f` if `L_u` is a real line and `L_e` is a real line and `L_e ≠ L_u`,
else `p = 0`. -/
def specTransferPenalty (lu le : Option String) (f : ℤ) : ℤ :=
  if specIsRealLine lu ∧ specIsRealLine le ∧ le ≠ lu then f else 0

/-- Minimum of a list of rationals. -/
def listMinQ : List ℤ → Option ℤ
  | [] => none
  | x :: xs =>
    match listMinQ xs with
    | none => some x
    | some m => some (min x m)

/-- One relaxation sweep of the reference Dijkstra (spec penalty rule,
priority equal to the stored cost, no tie-break inflation). -/
def specRelaxList (restricted : List String) (current currentShape : String) :
    CostMap × List QEntry → List Edge → CostMap × List QEntry
  | st, [] => st
  | (cost, queue), e :: es =>
    if e.shape_id ∈ restricted then
      specRelaxList restricted current currentShape (cost, queue) es
    else
      let pen := specTransferPenalty (some currentShape) (some e.shape_id) e.frequency
      let tent := (alGet cost (current, some currentShape)).getD 0 + e.weight + pen
      let improve : Bool :=
        match alGet cost (e.dst, some e.shape_id) with
        | none => true
        | some c => decide (tent < c)
      if improve then
        specRelaxList restricted current currentShape
          (alSet cost (e.dst, some e.shape_id) tent,
           queue ++ [(tent, e.dst, e.shape_id)]) es
      else specRelaxList restricted current currentShape (cost, queue) es

/-- Reference Dijkstra main loop, run to queue exhaustion (no early
termination at the destination). -/
def specLoop (g : Graph) (restricted : List String) :
    ℕ → CostMap × List QEntry → Option CostMap
  | 0, _ => none
  | fuel + 1, (cost, queue) =>
    match popMin queue with
    | none => some cost
    | some (e, rest) =>
      specLoop g restricted fuel
        (specRelaxList restricted e.2.1 e.2.2 (cost, rest) (outEdges g e.2.1))

/-- Reference initialization for a stop origin: `g = travel_time + headway`
on each outgoing edge, skipping forbidden lines. -/
def specInitList (restricted : List String) :
    CostMap × List QEntry → List Edge → CostMap × List QEntry
  | st, [] => st
  | (cost, queue), e :: es =>
    if e.shape_id ∈ restricted then specInitList restricted (cost, queue) es
    else
      specInitList restricted
        (alSet cost (e.dst, some e.shape_id) (e.weight + e.frequency),
         queue ++ [(e.weight + e.frequency, e.dst, e.shape_id)]) es

/-- Modelled from the spec: the reference Dijkstra over the product state
space `(stop, incoming_line)` of section 8, property 1 — run to
exhaustion, returning the minimum cost over all `(dst, *)` states. -/
def specReferenceCost (g : Graph) (src dst : String) (restricted : List String)
    (fuel : ℕ) : Option ℤ :=
  match specLoop g restricted fuel (specInitList restricted ([], []) (outEdges g src)) with
  | none => none
  | some cost => listMinQ ((cost.filter (fun kv => kv.1.1 = dst)).map (fun kv => kv.2))

structure RideAttr where
  weight : ℤ
  shape_id : String
  frequency : ℤ
deriving DecidableEq, Repr

structure StopRow where
  stop_id : String
  pos : ℤ × ℤ
  next_stops : List (String × List RideAttr)
deriving DecidableEq, Repr

/-- Ride edges: graph_loader.py lines 73-83. -/
def addAdjacentStops (stops : List StopRow) : List Edge :=
  stops.flatMap (fun s =>
    s.next_stops.flatMap (fun nxt =>
      nxt.2.map (fun a => ⟨s.stop_id, nxt.1, a.weight, a.shape_id, a.frequency⟩)))

/-- The walking-reach radius in metres: `max_walking_time` seconds at
5 km/h (25/18 m/s). -/
def walkThreshold (maxWalkingTime : ℚ) : ℚ := maxWalkingTime * (25 / 18)

/-- Walking duration between two points, seconds:
`round(distance / (5 / 3.6))`. -/
def walkTime (p q : ℤ × ℤ) : ℤ := pyRound (18 * eudist p q) 25

/-- Membership in the walking-reach disc of radius `walkThreshold mwt`,
as an exact integer comparison:
`dist ≤ mwt·25/18  ↔  324·dist² ≤ 625·mwt²`. -/
def inWalkRange (mwt : ℤ) (p q : ℤ × ℤ) : Bool :=
  decide (324 * (dist2 p q : ℤ) ≤ 625 * mwt ^ 2)

/-- Walk-transfer edges: graph_loader.py lines 85-113.  For every ordered
pair of rows with distinct indices whose positions lie within walking
reach, an edge with the walking shape marker and `frequency=0`. -/
def addWalkingEdges (stops : List StopRow) (mwt : ℤ) : List Edge :=
  (List.range stops.length).flatMap (fun i =>
    (List.range stops.length).flatMap (fun j =>
      if i = j then []
      else
        match stops.get? i, stops.get? j with
        | some s, some t =>
          if inWalkRange mwt s.pos t.pos then
            [⟨s.stop_id, t.stop_id, walkTime s.pos t.pos, "walking", 0⟩]
          else []
        | _, _ => []))

/-- Embedding of `create_graph_transit`: ride edges first, then walking edges. -/
def buildTransitGraph (stops : List StopRow) (mwt : ℤ) : Graph :=
  addAdjacentStops stops ++ addWalkingEdges stops mwt

/-- A row of `stops_gdf` as used by the routing service. -/
structure Stop where
  stop_id : String
  pos : ℤ × ℤ
deriving DecidableEq, Repr

/-- Embedding of `stops_gdf.geometry.distance(p).idxmin()`: the first row attaining the
minimum distance, in table order. -/
def nearestStopRow : List Stop → (ℤ × ℤ) → Option Stop
  | [], _ => none
  | s :: rest, p =>
    match nearestStopRow rest p with
    | none => some s
    | some m => if dist2 p s.pos ≤ dist2 p m.pos then some s else some m

/-- Embedding of `RouteService.get_start_walking_edges`.  `none` models
the `idxmin` exception on an empty stops table.  The graph node position
read on line 401 coincides with the table geometry by construction
(graph_loader.py line 79). -/
def getStartWalkingEdges (stops : List Stop) (start : ℤ × ℤ) (maxWalkingTime : ℤ) :
    Option (List (String × ℤ)) :=
  match nearestStopRow stops start with
  | none => none
  | some ns =>
    let base := [(ns.stop_id, walkTime start ns.pos)]
    if 625 * maxWalkingTime ^ 2 < 324 * (dist2 start ns.pos : ℤ) then some base
    else
      some (base ++ (stops.filter (fun s =>
          inWalkRange maxWalkingTime start s.pos && s.stop_id != ns.stop_id)).map
        (fun s => (s.stop_id, walkTime start s.pos)))

/-- Embedding of `RouteService.route_walking` (routing.py lines 141-185).
Returns the polyline (metric coordinates) and the walking time in whole
seconds.  Stub legs walk at 3 km/h (5/6 m/s), graph legs at 5 km/h. -/
def routeWalking (nearestNode : ℤ × ℤ → String) (nodePos : String → ℤ × ℤ)
    (hasPath : String → String → Bool) (spNodes : String → String → List String)
    (spLength : String → String → ℤ) (p1 p2 : ℤ × ℤ) : List (ℤ × ℤ) × ℤ :=
  let n1 := nearestNode p1
  let n2 := nearestNode p2
  let q1 := nodePos n1
  let q2 := nodePos n2
  let coords0 : List (ℤ × ℤ) := [p1, q1]
  let t0 : ℤ := pyRound (6 * eudist p1 q1) 5
  let mid : List (ℤ × ℤ) × ℤ :=
    if n1 = n2 then (coords0, t0)
    else if hasPath n1 n2 = false then (coords0, t0 + pyRound (6 * eudist q1 q2) 5)
    else (coords0 ++ (spNodes n1 n2).map nodePos, t0 + pyRound (18 * spLength n1 n2) 25)
  (mid.1 ++ [q2, p2], mid.2 + pyRound (6 * eudist q2 p2) 5)

/-- Modelled from the spec: section 4.3 — when the snapped nodes coincide
or no path joins them, a straight-line polyline with duration
`distance(p1, p2) / slow_walk_speed`, rounded. -/
def specWalkFallback (p1 p2 : ℤ × ℤ) : List (ℤ × ℤ) × ℤ :=
  ([p1, p2], pyRound (6 * eudist p1 p2) 5)

structure Segment where
  mode : String
  shape_id : Option String
  stops : List String
  stop_time_deltas : Option (List (Option ℤ))
  frequency : Option ℚ
  segment_time_seconds : Option ℚ
deriving DecidableEq, Repr

/-- A row of `transit_gdf` with the columns the segmenter reads. -/
structure LineRow where
  shape_id : String
  stop_ids : List String
  stop_time_deltas : List ℤ
deriving DecidableEq, Repr

/-- Row selection `transit_gdf[transit_gdf.shape_id == sh].iloc[0]`. -/
def lookupLine (table : List LineRow) (sh : String) : Option LineRow :=
  table.find? (fun r => r.shape_id == sh)

/-- Insertion sort on rationals (ascending), for the pandas median. -/
def insertSortedQ (x : ℚ) : List ℚ → List ℚ
  | [] => [x]
  | y :: ys => if x ≤ y then x :: y :: ys else y :: insertSortedQ x ys

def sortQ : List ℚ → List ℚ
  | [] => []
  | x :: xs => insertSortedQ x (sortQ xs)

/-- pandas `Series.median`: middle element of the sorted list, or the mean
of the two middle elements. -/
def ratMedian (l : List ℚ) : Option ℚ :=
  match l with
  | [] => none
  | _ =>
    let s := sortQ l
    let n := s.length
    some (if n % 2 = 1 then s.getD (n / 2) 0
          else (s.getD (n / 2 - 1) 0 + s.getD (n / 2) 0) / 2)

/-- The per-hop edge chosen by `finalize_transit_segment` (routing.py
lines 270-288): the first parallel edge matching the shape of the segment, else
the first edge. -/
def hopEdges (g : Graph) (sh : String) (segStops : List String) : List Edge :=
  (List.range (segStops.length - 1)).filterMap (fun i =>
    let u := segStops.getD i ""
    let v := segStops.getD (i + 1) ""
    match g.filter (fun e => e.src == u && e.dst == v) with
    | [] => none
    | d0 :: ds =>
      some (match (d0 :: ds).find? (fun e => e.shape_id == sh) with
            | some c => c
            | none => d0))

/-- Embedding of `finalize_transit_segment` (routing.py lines 229-314): `none` models
the early returns (empty stop list, or shape absent from `transit_gdf`;
a Python `None` shape matches no row). -/
def finalizeTransitSegment (table : List LineRow) (g : Graph) (shape : Option String)
    (segStops : List String) : Option Segment :=
  if segStops.isEmpty then none
  else
    match shape with
    | none => none
    | some sh =>
      match lookupLine table sh with
      | none => none
      | some row =>
        let segDeltas := (List.range (segStops.length - 1)).map (fun i =>
          match row.stop_ids.findIdx? (fun z => z == segStops.getD i ""),
              row.stop_ids.findIdx? (fun z => z == segStops.getD (i + 1) "") with
          | some idx, some idxn =>
            if idxn = idx + 1 ∧ idx < row.stop_time_deltas.length then
              some (row.stop_time_deltas.getD idx 0)
            else none
          | _, _ => none)
        let hops := hopEdges g sh segStops
        let freqs := hops.map (fun e => (e.frequency : ℚ))
        let weights := hops.map (fun e => (e.weight : ℚ))
        some ⟨"transit", some sh, segStops, some segDeltas, ratMedian freqs,
              if weights.isEmpty then none
              else some (weights.foldl (fun a b => a + b) 0)⟩

/-- Embedding of `finalize_walking_segment` (routing.py lines 317-361): nothing is
emitted for fewer than two stops; otherwise the row keeps only the first
and last stop and the duration of the `route_walking` call. -/
def finalizeWalkingSegment (wt : String → String → ℚ) (walkStops : List String) :
    Option Segment :=
  if walkStops.length < 2 then none
  else
    some ⟨"walking", none, [walkStops.headD "", walkStops.getLastD ""],
          none, none, some (wt (walkStops.headD "") (walkStops.getLastD ""))⟩

/-- Dispatch on the shape of the run (routing.py lines 376-379). -/
def finalizeAny (table : List LineRow) (g : Graph) (wt : String → String → ℚ)
    (cs : Option String) (stops_ : List String) : Option Segment :=
  if cs = some "walking" then finalizeWalkingSegment wt stops_
  else finalizeTransitSegment table g cs stops_

/-- The grouping loop over the path (routing.py lines 363-389): contiguous
entries sharing a shape form a run; on a shape change the run is
finalized and the boundary stop carries over into the next run. -/
def segLoop (table : List LineRow) (g : Graph) (wt : String → String → ℚ) :
    Option String → List String → List Segment → List SKey → List Segment
  | cs, stops_, segs, [] =>
    if stops_.isEmpty then segs
    else segs ++ (finalizeAny table g wt cs stops_).toList
  | cs, stops_, segs, (x, sh) :: rest =>
    if sh = cs then segLoop table g wt cs (stops_ ++ [x]) segs rest
    else
      segLoop table g wt sh [stops_.getLastD "", x]
        (segs ++ (finalizeAny table g wt cs stops_).toList) rest

/-- The segment "DataFrame": `pd.DataFrame(segments)` owns column labels
exactly when built from a non-empty record list or with explicit
`columns=[...]`; column access on a schema-less frame raises `KeyError`. -/
structure SegDF where
  hasSchema : Bool
  rows : List Segment
deriving DecidableEq, Repr

/-- Embedding of `RouteService.get_transit_segments_df`. -/
def getTransitSegmentsDf (table : List LineRow) (g : Graph) (wt : String → String → ℚ)
    (path : List SKey) : SegDF :=
  match path with
  | [] => ⟨true, []⟩
  | (x0, sh0) :: rest =>
    let rows := segLoop table g wt sh0 [x0] [] rest
    ⟨!rows.isEmpty, rows⟩

/-- Column sum `df[name].sum()` with pandas `skipna` semantics; the
`KeyError` of a schema-less frame becomes an `Except.error`. -/
def dfColSum (df : SegDF) (col : Segment → Option ℚ) (name : String) : Except String ℚ :=
  if df.hasSchema then Except.ok (df.rows.foldl (fun a r => a + ((col r).getD 0)) 0)
  else Except.error ("KeyError: " ++ name)

/-- No two adjacent rows are both walking rows. -/
def noConsecWalk : List Segment → Bool
  | [] => true
  | [_] => true
  | a :: b :: rest =>
    !(a.mode == "walking" && b.mode == "walking") && noConsecWalk (b :: rest)

/-- The inner `while current_route_shapes and not found_new_shape` loop of
routing.py lines 470-475: the first shape of the current route not yet
restricted.  A Python set iterates in an unspecified order; the model
fixes first-occurrence order of the deduplicated shape list. -/
def findNewShape (shapes : List String) (restricted : List String) : Option String :=
  shapes.find? (fun s => !(restricted.contains s))

/-- Stable insertion into a list sorted by ascending total time. -/
def insertByTime (sorted : List (SegDF × ℚ)) (x : SegDF × ℚ) : List (SegDF × ℚ) :=
  match sorted with
  | [] => [x]
  | y :: ys => if y.2 ≤ x.2 then y :: insertByTime ys x else x :: y :: ys

/-- Stable ascending sort by total time: the list sort of routing.py
line 483. -/
def sortByTime (l : List (SegDF × ℚ)) : List (SegDF × ℚ) :=
  l.foldl insertByTime []

instance exceptDecEq {E A : Type} [DecidableEq E] [DecidableEq A] :
    DecidableEq (Except E A)
  | Except.error x, Except.error y =>
    if h : x = y then isTrue (h ▸ rfl) else isFalse (fun hh => h (Except.error.inj hh))
  | Except.error _, Except.ok _ => isFalse (fun hh => Except.noConfusion hh)
  | Except.ok _, Except.error _ => isFalse (fun hh => Except.noConfusion hh)
  | Except.ok x, Except.ok y =>
    if h : x = y then isTrue (h ▸ rfl) else isFalse (fun hh => h (Except.ok.inj hh))

/-- The alternatives loop of `route_combined` (routing.py lines 451-485).
An uncaught Python exception is an `Except.error`; `route_transit`
discards the cost and returns only the path. -/
def routeCombinedLoop (g : Graph) (table : List LineRow) (wt : String → String → ℚ)
    (swe : List (String × ℤ)) (endNode : String) (h : String → ℤ) (fuel : ℕ) :
    ℕ → List String → List (SegDF × ℚ) → Except String (List (SegDF × ℚ))
  | 0, _, acc => Except.ok (sortByTime acc)
  | alts + 1, restricted, acc =>
    match dijkstraTransit g "Real_Start" endNode swe restricted h fuel with
    | none => Except.error "fuel exhausted"
    | some (path, _) =>
      let path2 := path ++ [("Real_End", some "walking")]
      let df := getTransitSegmentsDf table g wt path2
      match dfColSum df (fun r => r.segment_time_seconds) "segment_time_seconds" with
      | Except.error msg => Except.error msg
      | Except.ok t1 =>
        match dfColSum df (fun r => r.frequency) "frequency" with
        | Except.error msg => Except.error msg
        | Except.ok t2 =>
          let acc' := acc ++ [(df, t1 + t2)]
          let shapes :=
            ((df.rows.filter (fun r => r.mode == "transit")).filterMap
              (fun r => r.shape_id)).dedup
          match findNewShape shapes restricted with
          | none => Except.ok (sortByTime acc')
          | some sh =>
            routeCombinedLoop g table wt swe endNode h fuel alts (restricted ++ [sh]) acc'

/-- Embedding of `RouteService.route_combined`: boarding set and drop-off
stop from the stops table, then the alternatives loop. -/
def routeCombined (g : Graph) (table : List LineRow) (wt : String → String → ℚ)
    (stops : List Stop) (start endp : ℤ × ℤ) (h : String → ℤ) (fuel : ℕ) :
    Except String (List (SegDF × ℚ)) :=
  match getStartWalkingEdges stops start 300 with
  | none => Except.error "ValueError: idxmin of an empty sequence"
  | some swe =>
    match nearestStopRow stops endp with
    | none => Except.error "ValueError: idxmin of an empty sequence"
    | some endStop => routeCombinedLoop g table wt swe endStop.stop_id h fuel 3 [] []

/-- Every predecessor value is either the origin state or itself a
recorded key: the backtracking loop can only stop at the origin. -/
def PrevInv (srcSt : SKey) (prev : PrevMap) : Prop :=
  ∀ kv ∈ prev, kv.2 = srcSt ∨ (alGet prev kv.2).isSome

/-- Every recorded state key carries a string shape (the origin state,
whose shape is `None`, is never a key). -/
def KeysSome (prev : PrevMap) : Prop :=
  ∀ kv ∈ prev, kv.1.2.isSome

/-- Every queued entry names a state that owns a predecessor record. -/
def QueueInv (prev : PrevMap) (q : List QEntry) : Prop :=
  ∀ x ∈ q, (alGet prev (x.2.1, some x.2.2)).isSome

/-- The three invariants bundled over a search state. -/
def SInv (srcSt : SKey) (st : SearchState) : Prop :=
  PrevInv srcSt st.previous ∧ KeysSome st.previous ∧ QueueInv st.previous st.queue

/-- Decidable form of the segmenter hypothesis: the shape of a path entry is a
string that is either the walking sentinel or present in the line table. -/
def shapeOkB (table : List LineRow) : Option String → Bool
  | none => false
  | some s => s == "walking" || (lookupLine table s).isSome

/-- Four stops, three lines.  The cheapest route to `d` rides `L2` then
transfers to `L3` (cost 20 + 50 + 30 = 100), but the transfer inflates the
pushed priority by `2·30`, so the single-line route of cost 120 is popped
first. -/
def G0 : Graph :=
  [⟨"s", "a", 10, "L1", 100⟩, ⟨"s", "b", 10, "L2", 10⟩,
   ⟨"a", "d", 10, "L1", 100⟩, ⟨"b", "d", 50, "L3", 30⟩]

/-- A graph in which `Z` is unreachable from the only boarding stop `A`. -/
def G3 : Graph := [⟨"A", "B", 10, "L1", 60⟩]

def T3 : List LineRow := [⟨"L1", ["A", "B"], [10]⟩]

def stops3 : List Stop := [⟨"A", (0, 0)⟩, ⟨"Z", (1000000, 0)⟩]

/-- Two stops at the same position: the table order is `B` before `A`. -/
def c6Stops : List Stop := [⟨"B", (0, 0)⟩, ⟨"A", (0, 0)⟩]

/-- One ride edge, for witness runs of the search. -/
def G10 : Graph := [⟨"A", "B", 5, "L1", 10⟩]

/-- A state path whose middle transit run carries a shape absent from the
line table, sandwiched between two walking runs. -/
def path9 : List SKey :=
  [("A", some "walking"), ("B", some "walking"), ("C", some "BAD"),
   ("D", some "walking"), ("E", some "walking")]

/-- Stops for the C5 witness: two stops 100 m apart with one ride edge. -/
def c5Stops : List StopRow :=
  [⟨"P", (0, 0), [("Q", [⟨30, "L9", 120⟩])]⟩, ⟨"Q", (0, 100), []⟩]

/-- The mode of the last emitted segment, if any. -/
def lastMode (segs : List Segment) : Option String :=
  (segs.getLast?).map (fun s => s.mode)

/-! ### Theorems -/

theorem dist2_comm (p q : ℤ × ℤ) : dist2 p q = dist2 q p := by
  unfold dist2
  have h : (p.1 - q.1)^2 + (p.2 - q.2)^2 = (q.1 - p.1)^2 + (q.2 - p.2)^2 := by ring
  rw [h]

theorem eudist_comm (p q : ℤ × ℤ) : eudist p q = eudist q p := by
  unfold eudist
  rw [dist2_comm]

theorem alGet_alSet {K V : Type} [DecidableEq K] (m : List (K × V)) (k k' : K) (v : V) :
    alGet (alSet m k v) k' = if k' = k then some v else alGet m k' := by
  induction m with
  | nil =>
    simp [alSet, alGet]
  | cons hd tl ih =>
    obtain ⟨k0, v0⟩ := hd
    by_cases h0 : k0 = k
    · subst h0
      by_cases h1 : k' = k0 <;> simp [alSet, alGet, h1]
    · by_cases h1 : k' = k0
      · rw [h1]
        simp [alSet, alGet, h0]
      · simp [alSet, alGet, h0, h1, ih]

theorem alGet_isSome_mono {K V : Type} [DecidableEq K] (m : List (K × V)) (k k' : K) (v : V)
    (h : (alGet m k').isSome) : (alGet (alSet m k v) k').isSome := by
  rw [alGet_alSet]
  by_cases hk : k' = k <;> simp [hk, h]

theorem mem_alSet {K V : Type} [DecidableEq K] (m : List (K × V)) (k : K) (v : V) :
    ∀ p ∈ alSet m k v, p = (k, v) ∨ p ∈ m := by
  induction m with
  | nil => simp [alSet]
  | cons hd tl ih =>
    obtain ⟨k0, v0⟩ := hd
    intro p hp
    by_cases h0 : k0 = k
    · subst h0
      simp only [alSet, if_pos rfl] at hp
      rcases List.mem_cons.mp hp with h | h
      · exact Or.inl h
      · exact Or.inr (List.mem_cons_of_mem _ h)
    · simp only [alSet, if_neg h0] at hp
      rcases List.mem_cons.mp hp with h | h
      · right
        rw [h]
        exact List.mem_cons_self _ _
      · rcases ih p h with h' | h'
        · exact Or.inl h'
        · exact Or.inr (List.mem_cons_of_mem _ h')

theorem alGet_isSome_of_mem {K V : Type} [DecidableEq K] (m : List (K × V)) (k : K) (v : V)
    (h : (k, v) ∈ m) : (alGet m k).isSome := by
  induction m with
  | nil => simp at h
  | cons hd tl ih =>
    obtain ⟨k0, v0⟩ := hd
    rcases List.mem_cons.mp h with h' | h'
    · cases h'
      simp [alGet]
    · by_cases hk : k = k0
      · simp [alGet, hk]
      · simpa [alGet, hk] using ih h'

theorem alGet_eq_some_mem {K V : Type} [DecidableEq K] (m : List (K × V)) (k : K) (v : V)
    (h : alGet m k = some v) : (k, v) ∈ m := by
  induction m with
  | nil => simp [alGet] at h
  | cons hd tl ih =>
    obtain ⟨k0, v0⟩ := hd
    by_cases hk : k = k0
    · subst hk
      simp [alGet] at h
      simp [h]
    · simp [alGet, hk] at h
      exact List.mem_cons_of_mem _ (ih h)

theorem char_toNat_inj {a b : Char} (h : a.toNat = b.toNat) : a = b := by
  apply Char.ext
  unfold Char.toNat at h
  exact UInt32.ext h

theorem charListLt_trichotomy : ∀ as bs : List Char,
    charListLt as bs = true ∨ as = bs ∨ charListLt bs as = true := by
  intro as
  induction as with
  | nil =>
    intro bs
    cases bs with
    | nil => exact Or.inr (Or.inl rfl)
    | cons b bs' => exact Or.inl rfl
  | cons a as' ih =>
    intro bs
    cases bs with
    | nil => exact Or.inr (Or.inr rfl)
    | cons b bs' =>
      rcases Nat.lt_trichotomy a.toNat b.toNat with h | h | h
      · left
        simp [charListLt, h]
      · obtain rfl := char_toNat_inj h
        rcases ih bs' with h2 | h2 | h2
        · left
          simp [charListLt, h2]
        · exact Or.inr (Or.inl (by rw [h2]))
        · right; right
          simp [charListLt, h2]
      · right; right
        simp [charListLt, h]

theorem charListLt_trans : ∀ as bs cs : List Char,
    charListLt as bs = true → charListLt bs cs = true → charListLt as cs = true := by
  intro as
  induction as with
  | nil =>
    intro bs cs h1 h2
    cases bs with
    | nil => simp [charListLt] at h1
    | cons b bs' =>
      cases cs with
      | nil => simp [charListLt] at h2
      | cons c cs' => rfl
  | cons a as' ih =>
    intro bs cs h1 h2
    cases bs with
    | nil => simp [charListLt] at h1
    | cons b bs' =>
      cases cs with
      | nil => simp [charListLt] at h2
      | cons c cs' =>
        simp only [charListLt] at h1 h2 ⊢
        by_cases hab : a.toNat < b.toNat
        · by_cases hbc : b.toNat < c.toNat
          · simp [Nat.lt_trans hab hbc]
          · simp only [if_pos hab] at h1
            by_cases hcb : c.toNat < b.toNat
            · simp [hbc, hcb] at h2
            · have hbceq : b.toNat = c.toNat := by omega
              simp [hbceq ▸ hab]
        · by_cases hba : b.toNat < a.toNat
          · simp [hab, hba] at h1
          · have habeq : a.toNat = b.toNat := by omega
            simp only [if_neg hab, if_neg hba] at h1
            by_cases hbc : b.toNat < c.toNat
            · simp [habeq ▸ hbc]
            · by_cases hcb : c.toNat < b.toNat
              · simp [hbc, hcb] at h2
              · have hbceq : b.toNat = c.toNat := by omega
                simp only [if_neg hbc, if_neg hcb] at h2
                have hac : ¬ a.toNat < c.toNat := by omega
                have hca : ¬ c.toNat < a.toNat := by omega
                simp [hac, hca, ih bs' cs' h1 h2]

theorem str_data_ext {a b : String} (h : a.data = b.data) : a = b := by
  cases a
  cases b
  cases h
  rfl

theorem qLe_refl (a : QEntry) : qLe a a :=
  Or.inr ⟨rfl, Or.inr ⟨rfl, Or.inr rfl⟩⟩

theorem strLt_trichotomy (a b : String) :
    strLtB a b = true ∨ a = b ∨ strLtB b a = true := by
  rcases charListLt_trichotomy a.data b.data with h | h | h
  · exact Or.inl h
  · exact Or.inr (Or.inl (str_data_ext h))
  · exact Or.inr (Or.inr h)

theorem qLe_total (a b : QEntry) : qLe a b ∨ qLe b a := by
  unfold qLe
  rcases lt_trichotomy a.1 b.1 with h | h | h
  · exact Or.inl (Or.inl h)
  · rcases strLt_trichotomy a.2.1 b.2.1 with h2 | h2 | h2
    · exact Or.inl (Or.inr ⟨h, Or.inl h2⟩)
    · rcases strLt_trichotomy a.2.2 b.2.2 with h3 | h3 | h3
      · exact Or.inl (Or.inr ⟨h, Or.inr ⟨h2, Or.inl h3⟩⟩)
      · exact Or.inl (Or.inr ⟨h, Or.inr ⟨h2, Or.inr h3⟩⟩)
      · exact Or.inr (Or.inr ⟨h.symm, Or.inr ⟨h2.symm, Or.inl h3⟩⟩)
    · exact Or.inr (Or.inr ⟨h.symm, Or.inl h2⟩)
  · exact Or.inr (Or.inl h)

theorem strLt_transB {a b c : String} (h1 : strLtB a b = true) (h2 : strLtB b c = true) :
    strLtB a c = true :=
  charListLt_trans a.data b.data c.data h1 h2

theorem qLe_trans {a b c : QEntry} (h1 : qLe a b) (h2 : qLe b c) : qLe a c := by
  unfold qLe at h1 h2 ⊢
  rcases h1 with h1 | ⟨e1, h1⟩
  · rcases h2 with h2 | ⟨e2, _⟩
    · exact Or.inl (h1.trans h2)
    · exact Or.inl (h1.trans_eq e2)
  · rcases h2 with h2 | ⟨e2, h2⟩
    · exact Or.inl (e1.trans_lt h2)
    · refine Or.inr ⟨e1.trans e2, ?_⟩
      rcases h1 with h1 | ⟨f1, h1⟩
      · rcases h2 with h2 | ⟨f2, _⟩
        · exact Or.inl (strLt_transB h1 h2)
        · exact Or.inl (f2 ▸ h1)
      · rcases h2 with h2 | ⟨f2, h2⟩
        · exact Or.inl (f1 ▸ h2)
        · refine Or.inr ⟨f1.trans f2, ?_⟩
          rcases h1 with h1 | h1
          · rcases h2 with h2 | h2
            · exact Or.inl (strLt_transB h1 h2)
            · exact Or.inl (h2 ▸ h1)
          · rcases h2 with h2 | h2
            · exact Or.inl (h1 ▸ h2)
            · exact Or.inr (h1.trans h2)

theorem popMin_nil_iff (q : List QEntry) : popMin q = none ↔ q = [] := by
  cases q with
  | nil => simp [popMin]
  | cons x xs =>
    simp only [popMin]
    cases h : popMin xs with
    | none => simp
    | some p =>
      obtain ⟨m, rest⟩ := p
      by_cases hle : qLe x m <;> simp [hle]

theorem popMin_mem {q : List QEntry} {e : QEntry} {rest : List QEntry}
    (h : popMin q = some (e, rest)) : e ∈ q := by
  induction q generalizing e rest with
  | nil => simp [popMin] at h
  | cons x xs ih =>
    simp only [popMin] at h
    cases h' : popMin xs with
    | none =>
      rw [h'] at h
      simp at h
      simp [h.1]
    | some p =>
      obtain ⟨m, r⟩ := p
      rw [h'] at h
      by_cases hle : qLe x m
      · simp [hle] at h
        simp [h.1]
      · simp [hle] at h
        exact List.mem_cons_of_mem _ (h.1 ▸ ih h')

theorem popMin_rest_subset {q : List QEntry} {e : QEntry} {rest : List QEntry}
    (h : popMin q = some (e, rest)) : ∀ x ∈ rest, x ∈ q := by
  induction q generalizing e rest with
  | nil => simp [popMin] at h
  | cons x xs ih =>
    simp only [popMin] at h
    cases h' : popMin xs with
    | none =>
      rw [h'] at h
      simp at h
      intro z hz
      exact List.mem_cons_of_mem _ (h.2 ▸ hz)
    | some p =>
      obtain ⟨m, r⟩ := p
      rw [h'] at h
      by_cases hle : qLe x m
      · simp [hle] at h
        intro z hz
        exact List.mem_cons_of_mem _ (h.2 ▸ hz)
      · simp [hle] at h
        intro z hz
        rw [← h.2] at hz
        rcases List.mem_cons.mp hz with hz | hz
        · exact hz ▸ List.mem_cons_self _ _
        · exact List.mem_cons_of_mem _ (ih h' z hz)

theorem popMin_least {q : List QEntry} {e : QEntry} {rest : List QEntry}
    (h : popMin q = some (e, rest)) : ∀ x ∈ q, qLe e x := by
  induction q generalizing e rest with
  | nil => simp [popMin] at h
  | cons x xs ih =>
    simp only [popMin] at h
    cases h' : popMin xs with
    | none =>
      rw [h'] at h
      simp at h
      obtain rfl := h.1
      have hxs : xs = [] := (popMin_nil_iff xs).mp h'
      subst hxs
      intro z hz
      simp at hz
      exact hz ▸ qLe_refl _
    | some p =>
      obtain ⟨m, r⟩ := p
      rw [h'] at h
      by_cases hle : qLe x m
      · simp [hle] at h
        obtain rfl := h.1
        intro z hz
        rcases List.mem_cons.mp hz with hz | hz
        · exact hz ▸ qLe_refl _
        · exact qLe_trans hle (ih h' z hz)
      · simp [hle] at h
        obtain rfl := h.1
        intro z hz
        rcases List.mem_cons.mp hz with hz | hz
        · exact hz ▸ ((qLe_total x m).resolve_left hle)
        · exact ih h' z hz

/-- Claim C1 counterexample: popping a walking-arrival state `u` (arrived on
foot) and relaxing a ride edge of line `L1` with headway 300, the source
charges the full headway as penalty, while the rule of the claim — both shapes
real lines — demands 0. -/
theorem c1_counterexample :
    transferPenalty (some "walking") (some "L1") 300 = 300 ∧
    specTransferPenalty (some "walking") (some "L1") 300 = 0 ∧
    (300 : ℤ) ≠ 0 := by
  refine ⟨by decide, by decide, by norm_num⟩

/-- Claim C1 (amended): inside the relaxation loop both shapes are strings,
so the penalty equals the headway of the edge exactly when its shape
differs from the arrival shape — the WALK sentinel counting as a line.
Boarding a line from a walking arrival is therefore penalized by the
headway of the boarding line; stepping from a line onto a walk edge is charged
the headway of that walk edge, which is 0; continuing on the same shape costs 0. -/
theorem c1_amended_penalty :
    (∀ (cost : CostMap) (current cs : String) (e : Edge),
        tentativeCost cost current cs e =
          (alGet cost (current, some cs)).getD 0 + e.weight +
            (if e.shape_id ≠ cs then e.frequency else 0)) ∧
    (∀ (cs ns : String) (f : ℤ),
        transferPenalty (some cs) (some ns) f = if ns ≠ cs then f else 0) ∧
    (∀ lu le : Option String, transferPenalty lu le 0 = 0) := by
  refine ⟨fun cost current cs e => ?_, fun cs ns f => ?_, fun lu le => ?_⟩
  · unfold tentativeCost transferPenalty
    by_cases h : e.shape_id = cs <;> simp [h]
  · unfold transferPenalty
    by_cases h : ns = cs <;> simp [h]
  · unfold transferPenalty
    split <;> rfl

/-- Claim C2 failing input: on `G0` with the zero heuristic the search
returns cost 120, yet the reference Dijkstra over the product state space
reaches `(d, L3)` at cost 100.  The `2·penalty` added to pushed priorities
delays the cheaper transfer branch past the first pop of `d`. -/
theorem c2_optimality_failure :
    (dijkstraTransit G0 "s" "d" [] [] (fun _ => 0) 100).map (fun r => r.2)
      = some (some (120 : ℤ)) ∧
    specReferenceCost G0 "s" "d" [] 100 = some (100 : ℤ) ∧
    (100 : ℤ) < 120 := by
  refine ⟨by decide, by decide, by norm_num⟩

/-- Claim C3 failing input: with destination stop `Z` unreachable from the
single boarding candidate `A`, the search does return `([], None)`, but
the planner then builds a segments DataFrame from the empty record list —
a frame with no columns — and `route_combined` line 462 raises
a KeyError for the missing time column instead of returning the empty
alternatives list. -/
theorem c3_unreachable_keyerror :
    dijkstraTransit G3 "Real_Start" "Z" [("A", 0)] [] (fun _ => 0) 100
      = some ([], none) ∧
    routeCombined G3 T3 (fun _ _ => 7) stops3 (0, 0) (1000000, 0) (fun _ => 0) 100
      = Except.error "KeyError: segment_time_seconds" := by
  refine ⟨by decide, by decide⟩

/-- Claim C4: the search is a pure function of its inputs (two runs with
equal graph, origin, walking entries, destination, forbidden set,
heuristic and fuel return identical results), and the queue pop always
selects an entry that is lexicographically least in
`(priority, stop_id, line_id)` order. -/
theorem c4_deterministic :
    (∀ (g g' : Graph) (src src' dst dst' : String) (swe swe' : List (String × ℤ))
        (r r' : List String) (h h' : String → ℤ) (fuel fuel' : ℕ),
        g = g' → src = src' → dst = dst' → swe = swe' → r = r' → h = h' → fuel = fuel' →
        dijkstraTransit g src dst swe r h fuel
          = dijkstraTransit g' src' dst' swe' r' h' fuel') ∧
    (∀ (q : List QEntry) (e : QEntry) (rest : List QEntry),
        popMin q = some (e, rest) → e ∈ q ∧ ∀ x ∈ q, qLe e x) := by
  constructor
  · intro g g' src src' dst dst' swe swe' r r' h h' fuel fuel' hg hs hd hw hr hh hf
    subst hg; subst hs; subst hd; subst hw; subst hr; subst hh; subst hf
    rfl
  · intro q e rest hpop
    exact ⟨popMin_mem hpop, popMin_least hpop⟩

/-- Witness for C4 at concrete inputs. -/
theorem c4_deterministic_witness :
    dijkstraTransit G10 "A" "B" [] [] (fun _ => 0) 10
      = dijkstraTransit G10 "A" "B" [] [] (fun _ => 0) 10 ∧
    (((1 : ℤ), "a", "L") ∈ [((2 : ℤ), "b", "M"), ((1 : ℤ), "a", "L")] ∧
      ∀ x ∈ [((2 : ℤ), "b", "M"), ((1 : ℤ), "a", "L")], qLe ((1 : ℤ), "a", "L") x) :=
  ⟨c4_deterministic.1 G10 G10 "A" "A" "B" "B" [] [] [] [] (fun _ => 0) (fun _ => 0) 10 10
      rfl rfl rfl rfl rfl rfl rfl,
   c4_deterministic.2 [((2 : ℤ), "b", "M"), ((1 : ℤ), "a", "L")] ((1 : ℤ), "a", "L")
      [((2 : ℤ), "b", "M")] (by decide)⟩

theorem nearestStopRow_nil_iff (stops : List Stop) (p : ℤ × ℤ) :
    nearestStopRow stops p = none ↔ stops = [] := by
  cases stops with
  | nil => simp [nearestStopRow]
  | cons a rest =>
    simp only [nearestStopRow]
    cases h : nearestStopRow rest p with
    | none => simp
    | some m =>
      by_cases hle : dist2 p a.pos ≤ dist2 p m.pos <;> simp [hle]

/-- Claim C6 counterexample: two stops at the same position, listed as
`B` then `A`; the lookup returns `B` (first table position), not the
lexicographically smaller `A`. -/
theorem c6_counterexample :
    (nearestStopRow c6Stops (0, 0)).map (fun s => s.stop_id) = some "B" ∧
    (⟨"A", (0, 0)⟩ : Stop) ∈ c6Stops ∧
    (∀ t ∈ c6Stops, dist2 (0, 0) ((0, 0) : ℤ × ℤ) ≤ dist2 (0, 0) t.pos) ∧
    strLtB "A" "B" = true := by
  refine ⟨by decide, by decide, by decide, by decide⟩

/-- Claim C6 (amended): the lookup returns a stop of minimum Euclidean
distance, and among the minimal stops the one at the earliest table
position (pandas `idxmin`), not the lexicographically least stop id. -/
theorem c6_amended_nearest (stops : List Stop) (p : ℤ × ℤ) (s : Stop)
    (h : nearestStopRow stops p = some s) :
    s ∈ stops ∧ (∀ t ∈ stops, dist2 p s.pos ≤ dist2 p t.pos) ∧
    ∃ pre post, stops = pre ++ s :: post ∧
      ∀ t ∈ pre, dist2 p s.pos < dist2 p t.pos := by
  induction stops generalizing s with
  | nil => simp [nearestStopRow] at h
  | cons a rest ih =>
    simp only [nearestStopRow] at h
    cases hr : nearestStopRow rest p with
    | none =>
      rw [hr] at h
      simp at h
      obtain rfl := h.symm
      have hrest : rest = [] := (nearestStopRow_nil_iff rest p).mp hr
      subst hrest
      exact ⟨List.mem_cons_self _ _, by simp, [], [], rfl, by simp⟩
    | some m =>
      rw [hr] at h
      obtain ⟨hm, hmin, pre, post, heq, hpre⟩ := ih m hr
      by_cases hle : dist2 p a.pos ≤ dist2 p m.pos
      · simp [hle] at h
        obtain rfl := h.symm
        refine ⟨List.mem_cons_self _ _, ?_, [], rest, rfl, by simp⟩
        intro t ht
        rcases List.mem_cons.mp ht with ht | ht
        · exact ht ▸ le_refl _
        · exact hle.trans (hmin t ht)
      · simp [hle] at h
        obtain rfl := h.symm
        refine ⟨List.mem_cons_of_mem _ hm, ?_, a :: pre, post, by rw [heq]; simp, ?_⟩
        · intro t ht
          rcases List.mem_cons.mp ht with ht | ht
          · exact ht ▸ le_of_lt (Nat.lt_of_not_le hle)
          · exact hmin t ht
        · intro t ht
          rcases List.mem_cons.mp ht with ht | ht
          · exact ht ▸ Nat.lt_of_not_le hle
          · exact hpre t ht

theorem PrevInv_alSet {srcSt : SKey} {prev : PrevMap} {k v : SKey}
    (hprev : PrevInv srcSt prev) (hv : v = srcSt ∨ (alGet prev v).isSome) :
    PrevInv srcSt (alSet prev k v) := by
  intro kv hkv
  rcases mem_alSet prev k v kv hkv with h | h
  · rw [h]
    rcases hv with hv | hv
    · exact Or.inl hv
    · exact Or.inr (alGet_isSome_mono _ _ _ _ hv)
  · rcases hprev kv h with h' | h'
    · exact Or.inl h'
    · exact Or.inr (alGet_isSome_mono _ _ _ _ h')

theorem KeysSome_alSet {prev : PrevMap} {k v : SKey} (hk : k.2.isSome)
    (h : KeysSome prev) : KeysSome (alSet prev k v) := by
  intro kv hkv
  rcases mem_alSet prev k v kv hkv with h' | h'
  · rw [h']
    exact hk
  · exact h kv h'

theorem relaxOne_inv {h : String → ℤ} {restricted : List String}
    {current currentShape : String} {st : SearchState} {e : Edge} {srcSt : SKey}
    (hst : SInv srcSt st)
    (hcur : (alGet st.previous (current, some currentShape)).isSome) :
    SInv srcSt (relaxOne h restricted current currentShape st e) ∧
    (alGet (relaxOne h restricted current currentShape st e).previous
      (current, some currentShape)).isSome := by
  obtain ⟨hP, hK, hQ⟩ := hst
  by_cases hres : e.shape_id ∈ restricted
  · simp only [relaxOne, if_pos hres]
    exact ⟨⟨hP, hK, hQ⟩, hcur⟩
  · by_cases himp : (match alGet st.cost (e.dst, some e.shape_id) with
      | none => true
      | some c => decide (tentativeCost st.cost current currentShape e < c)) = true
    · simp only [relaxOne, if_neg hres, himp, if_true]
      constructor
      · refine ⟨PrevInv_alSet hP (Or.inr hcur), KeysSome_alSet rfl hK, ?_⟩
        intro x hx
        rcases List.mem_append.mp hx with hx | hx
        · exact alGet_isSome_mono _ _ _ _ (hQ x hx)
        · rw [List.mem_singleton.mp hx]
          rw [alGet_alSet]
          simp
      · exact alGet_isSome_mono _ _ _ _ hcur
    · rw [Bool.not_eq_true] at himp
      simp only [relaxOne, if_neg hres, himp, Bool.false_eq_true, if_false]
      exact ⟨⟨hP, hK, hQ⟩, hcur⟩

theorem relaxList_inv {h : String → ℤ} {restricted : List String}
    {current currentShape : String} {srcSt : SKey} :
    ∀ (es : List Edge) (st : SearchState),
      SInv srcSt st →
      (alGet st.previous (current, some currentShape)).isSome →
      SInv srcSt (relaxList h restricted current currentShape st es) := by
  intro es
  induction es with
  | nil =>
    intro st hst _
    exact hst
  | cons e es' ih =>
    intro st hst hcur
    obtain ⟨hst', hcur'⟩ := relaxOne_inv hst hcur
    exact ih _ hst' hcur'

theorem searchLoop_inv {g : Graph} {h : String → ℤ} {restricted : List String}
    {dst : String} {srcSt : SKey} :
    ∀ (fuel : ℕ) (st out : SearchState) (eso : Option String),
      SInv srcSt st →
      searchLoop g h restricted dst fuel st = some (out, eso) →
      PrevInv srcSt out.previous ∧ KeysSome out.previous ∧
      (∀ es, eso = some es → (alGet out.previous (dst, some es)).isSome) := by
  intro fuel
  induction fuel with
  | zero =>
    intro st out eso _ hloop
    simp [searchLoop] at hloop
  | succ n ih =>
    intro st out eso hst hloop
    simp only [searchLoop] at hloop
    cases hpop : popMin st.queue with
    | none =>
      simp only [hpop, Option.some.injEq, Prod.mk.injEq] at hloop
      obtain ⟨rfl, rfl⟩ := hloop
      exact ⟨hst.1, hst.2.1, fun es hes => by simp at hes⟩
    | some pr =>
      obtain ⟨e, rest⟩ := pr
      simp only [hpop] at hloop
      by_cases hdst : e.2.1 = dst
      · rw [if_pos hdst] at hloop
        simp only [Option.some.injEq, Prod.mk.injEq] at hloop
        obtain ⟨rfl, rfl⟩ := hloop
        refine ⟨hst.1, hst.2.1, fun es hes => ?_⟩
        have hq := hst.2.2 e (popMin_mem hpop)
        rw [hdst] at hq
        injection hes with hes'
        rw [← hes']
        exact hq
      · rw [if_neg hdst] at hloop
        have hcur : (alGet st.previous (e.2.1, some e.2.2)).isSome :=
          hst.2.2 e (popMin_mem hpop)
        have hsub : SInv srcSt ⟨st.cost, st.previous, rest⟩ :=
          ⟨hst.1, hst.2.1, fun x hx => hst.2.2 x (popMin_rest_subset hpop x hx)⟩
        exact ih _ out eso (relaxList_inv _ _ hsub hcur) hloop

theorem emptyState_inv (srcSt : SKey) : SInv srcSt ⟨[], [], []⟩ :=
  ⟨fun kv hkv => absurd hkv (by simp),
   fun kv hkv => absurd hkv (by simp),
   fun x hx => absurd hx (by simp)⟩

theorem initVirtual_inv {h : String → ℤ} :
    ∀ (swe : List (String × ℤ)) (st : SearchState),
      SInv ("Real_Start", none) st →
      SInv ("Real_Start", none) (initVirtual h st swe) := by
  intro swe
  induction swe with
  | nil =>
    intro st hst
    exact hst
  | cons p rest ih =>
    intro st hst
    obtain ⟨stop, wtm⟩ := p
    obtain ⟨hP, hK, hQ⟩ := hst
    simp only [initVirtual]
    apply ih
    refine ⟨PrevInv_alSet hP (Or.inl rfl), KeysSome_alSet rfl hK, ?_⟩
    intro x hx
    rcases List.mem_append.mp hx with hx | hx
    · exact alGet_isSome_mono _ _ _ _ (hQ x hx)
    · rw [List.mem_singleton.mp hx]
      rw [alGet_alSet]
      simp

theorem initStop_inv {h : String → ℤ} {restricted : List String} {src : String} :
    ∀ (es : List Edge) (st : SearchState),
      SInv (src, none) st → SInv (src, none) (initStop h restricted src st es) := by
  intro es
  induction es with
  | nil =>
    intro st hst
    exact hst
  | cons e rest ih =>
    intro st hst
    obtain ⟨hP, hK, hQ⟩ := hst
    by_cases hres : e.shape_id ∈ restricted
    · simp only [initStop, if_pos hres]
      exact ih _ ⟨hP, hK, hQ⟩
    · simp only [initStop, if_neg hres]
      apply ih
      refine ⟨PrevInv_alSet hP (Or.inl rfl), KeysSome_alSet rfl hK, ?_⟩
      intro x hx
      rcases List.mem_append.mp hx with hx | hx
      · exact alGet_isSome_mono _ _ _ _ (hQ x hx)
      · rw [List.mem_singleton.mp hx]
        rw [alGet_alSet]
        simp

theorem initState_inv (g : Graph) (src : String) (swe : List (String × ℤ))
    (restricted : List String) (h : String → ℤ) :
    SInv (effSrc src swe, none) (initState g src swe restricted h) := by
  unfold initState effSrc
  by_cases hswe : swe.isEmpty
  · rw [if_pos hswe, if_pos hswe]
    exact initStop_inv _ _ (emptyState_inv _)
  · rw [if_neg hswe, if_neg hswe]
    exact initVirtual_inv _ _ (emptyState_inv _)

theorem keysSome_alGet_none {prev : PrevMap} (hK : KeysSome prev) {k : SKey}
    (hk : k.2 = none) : alGet prev k = none := by
  cases hag : alGet prev k with
  | none => rfl
  | some v =>
    have hmem := hK (k, v) (alGet_eq_some_mem _ _ _ hag)
    rw [hk] at hmem
    simp at hmem

theorem reconstruct_spec {prev : PrevMap} {srcSt : SKey}
    (hP : PrevInv srcSt prev) (_hsrc : alGet prev srcSt = none) :
    ∀ (fuel : ℕ) (cur : SKey) (acc path : List SKey),
      reconstructPath prev srcSt fuel cur acc = some path →
      List.Chain' (fun a b => alGet prev b = some a) (cur :: acc) →
      (cur = srcSt ∨ (alGet prev cur).isSome) →
      path.head? = some srcSt ∧ path.getLast? = (cur :: acc).getLast? ∧
      List.Chain' (fun a b => alGet prev b = some a) path := by
  intro fuel
  induction fuel with
  | zero =>
    intro cur acc path hrec _ _
    simp [reconstructPath] at hrec
  | succ n ih =>
    intro cur acc path hrec hchain hcur
    simp only [reconstructPath] at hrec
    cases hg : alGet prev cur with
    | none =>
      simp only [hg, Option.some.injEq] at hrec
      have hcs : cur = srcSt := by
        rcases hcur with hcur | hcur
        · exact hcur
        · rw [hg] at hcur
          simp at hcur
      rw [← hrec, ← hcs]
      exact ⟨rfl, rfl, hchain⟩
    | some p =>
      simp only [hg] at hrec
      have hres := ih p (cur :: acc) path hrec
        (List.chain'_cons.mpr ⟨hg, hchain⟩)
        (by
          rcases hP (cur, p) (alGet_eq_some_mem _ _ _ hg) with hp | hp
          · exact Or.inl hp
          · exact Or.inr hp)
      exact ⟨hres.1, by rw [hres.2.1, List.getLast?_cons_cons], hres.2.2⟩

/-- Claim C10: a non-empty returned path starts at the origin state
(`Real_Start` in the virtual-origin case) with incoming line `None`, ends
at a state whose stop is the destination, and every consecutive pair of
path elements is linked by the recorded predecessor relation. -/
theorem c10_path_structure (g : Graph) (src dst : String) (swe : List (String × ℤ))
    (restricted : List String) (h : String → ℤ) (fuel : ℕ) (out : SearchState)
    (eso : Option String) (path : List SKey) (c : Option ℤ)
    (hsearch : dijkstraSearch g src dst swe restricted h fuel = some (out, eso))
    (hret : dijkstraTransit g src dst swe restricted h fuel = some (path, c))
    (hne : path ≠ []) :
    path.head? = some (effSrc src swe, none) ∧
    (∃ les, path.getLast? = some (dst, les)) ∧
    List.Chain' (fun a b => alGet out.previous b = some a) path := by
  unfold dijkstraTransit at hret
  rw [hsearch] at hret
  cases eso with
  | none =>
    simp only [Option.some.injEq, Prod.mk.injEq] at hret
    exact absurd hret.1.symm hne
  | some es =>
    have hsinv := initState_inv g src swe restricted h
    unfold dijkstraSearch at hsearch
    obtain ⟨hP, hK, hdst⟩ := searchLoop_inv fuel _ out (some es) hsinv hsearch
    have hdst' := hdst es rfl
    cases hrec : reconstructPath out.previous (effSrc src swe, none)
        (out.previous.length + 1) (dst, some es) [] with
    | none => simp [hrec] at hret
    | some p0 =>
      simp only [hrec, Option.some.injEq, Prod.mk.injEq] at hret
      obtain ⟨rfl, -⟩ := hret
      have hspec := reconstruct_spec hP (keysSome_alGet_none hK rfl)
        (out.previous.length + 1) (dst, some es) [] p0 hrec (by simp) (Or.inr hdst')
      exact ⟨hspec.1, ⟨some es, by rw [hspec.2.1]; rfl⟩, hspec.2.2⟩

/-- Witness for C10 on a concrete one-edge run. -/
theorem c10_path_structure_witness :
    ([("A", none), ("B", some "L1")] : List SKey).head? = some (effSrc "A" [], none) ∧
    (∃ les, ([("A", none), ("B", some "L1")] : List SKey).getLast? = some ("B", les)) ∧
    List.Chain' (fun a b => alGet ((⟨[(("B", some "L1"), 15)],
        [(("B", some "L1"), ("A", none))], [(15, "B", "L1")]⟩ : SearchState)).previous
      b = some a) [("A", none), ("B", some "L1")] :=
  c10_path_structure G10 "A" "B" [] [] (fun _ => 0) 10
    ⟨[(("B", some "L1"), 15)], [(("B", some "L1"), ("A", none))], [(15, "B", "L1")]⟩
    (some "L1") [("A", none), ("B", some "L1")] (some 15)
    (by decide) (by decide) (by decide)

theorem lastMode_cons_cons (a b : Segment) (t : List Segment) :
    lastMode (a :: b :: t) = lastMode (b :: t) := by
  unfold lastMode
  rw [List.getLast?_cons_cons]

theorem lastMode_concat (segs : List Segment) (r : Segment) :
    lastMode (segs ++ [r]) = some r.mode := by
  unfold lastMode
  rw [List.getLast?_concat]
  rfl

theorem finalizeWalking_mode {wt : String → String → ℚ} {ws : List String}
    {seg : Segment} (h : finalizeWalkingSegment wt ws = some seg) :
    seg.mode = "walking" := by
  unfold finalizeWalkingSegment at h
  by_cases hl : ws.length < 2
  · simp [hl] at h
  · simp only [hl, if_false] at h
    cases h
    rfl

theorem finalizeTransit_mode {table : List LineRow} {g : Graph} {sh : Option String}
    {st : List String} {seg : Segment}
    (h : finalizeTransitSegment table g sh st = some seg) : seg.mode = "transit" := by
  unfold finalizeTransitSegment at h
  by_cases he : st.isEmpty
  · simp [he] at h
  · rw [if_neg he] at h
    cases sh with
    | none => simp at h
    | some s =>
      cases hlk : lookupLine table s with
      | none => simp [hlk] at h
      | some row =>
        simp only [hlk] at h
        cases h
        rfl

theorem finalizeTransit_isSome {table : List LineRow} {g : Graph} {s : String}
    {st : List String} (hne : st ≠ []) (hlk : (lookupLine table s).isSome) :
    (finalizeTransitSegment table g (some s) st).isSome := by
  unfold finalizeTransitSegment
  have he : st.isEmpty = false := by
    cases st with
    | nil => exact absurd rfl hne
    | cons a t => rfl
  rw [he]
  simp only [Bool.false_eq_true, if_false]
  cases hl : lookupLine table s with
  | none => rw [hl] at hlk; simp at hlk
  | some row => simp

theorem noConsec_append (segs : List Segment) (r : Segment)
    (h1 : noConsecWalk segs = true)
    (h2 : r.mode ≠ "walking" ∨ lastMode segs ≠ some "walking") :
    noConsecWalk (segs ++ [r]) = true := by
  induction segs with
  | nil => simp [noConsecWalk]
  | cons a tail ih =>
    cases tail with
    | nil =>
      simp only [List.cons_append, List.nil_append, noConsecWalk, Bool.and_eq_true,
        Bool.not_eq_true']
      refine ⟨?_, by trivial⟩
      rcases h2 with h2 | h2
      · rcases hb : (a.mode == "walking") <;> rcases hrb : (r.mode == "walking") <;> simp_all
      · have ha : a.mode ≠ "walking" := by
          intro hc
          exact h2 (by simp [lastMode, hc])
        rcases hb : (a.mode == "walking") <;> simp_all
    | cons b tail2 =>
      simp only [List.cons_append] at h1 ⊢
      simp only [noConsecWalk, Bool.and_eq_true] at h1 ⊢
      refine ⟨h1.1, ?_⟩
      have := ih h1.2 (by
        rcases h2 with h2 | h2
        · exact Or.inl h2
        · exact Or.inr (by rwa [lastMode_cons_cons] at h2))
      simpa [List.cons_append] using this

/-- Invariants produced by flushing the current run: the emitted list
stays free of adjacent walking rows, and after flushing a transit run the
last row is never a walking row. -/
theorem flush_invariants (table : List LineRow) (g : Graph) (wt : String → String → ℚ)
    (cs : Option String) (stops_ : List String) (segs : List Segment)
    (hne : stops_ ≠ [])
    (hA : noConsecWalk segs = true)
    (hB : cs = some "walking" → lastMode segs ≠ some "walking")
    (hC : cs ≠ some "walking" → segs = [] ∨
      ∃ s, cs = some s ∧ s ≠ "walking" ∧ (lookupLine table s).isSome) :
    noConsecWalk (segs ++ (finalizeAny table g wt cs stops_).toList) = true ∧
    (cs ≠ some "walking" →
      lastMode (segs ++ (finalizeAny table g wt cs stops_).toList) ≠ some "walking") := by
  by_cases hcs : cs = some "walking"
  · constructor
    · unfold finalizeAny
      rw [if_pos hcs]
      cases hf : finalizeWalkingSegment wt stops_ with
      | none => simpa using hA
      | some r =>
        simp only [Option.toList]
        exact noConsec_append segs r hA (Or.inr (hB hcs))
    · intro hne
      exact absurd hcs hne
  · have hfa : finalizeAny table g wt cs stops_ = finalizeTransitSegment table g cs stops_ := by
      unfold finalizeAny
      rw [if_neg hcs]
    rcases hC hcs with hseg | ⟨s, rfl, hsw, hlk⟩
    · subst hseg
      cases hf : finalizeTransitSegment table g cs stops_ with
      | none =>
        rw [hfa, hf]
        exact ⟨rfl, fun _ => by simp [lastMode]⟩
      | some r =>
        rw [hfa, hf]
        have hm := finalizeTransit_mode hf
        refine ⟨by simp [noConsecWalk], fun _ => ?_⟩
        rw [List.nil_append, show (some r).toList = [r] from rfl]
        simp [lastMode, hm]
    · cases hf : finalizeTransitSegment table g (some s) stops_ with
      | none =>
        have hsome := @finalizeTransit_isSome table g s stops_ hne hlk
        rw [hf] at hsome
        simp at hsome
      | some r =>
        rw [hfa, hf]
        have hm := finalizeTransit_mode hf
        refine ⟨noConsec_append segs r hA (Or.inl (by simp [hm])), fun _ => ?_⟩
        rw [show (some r).toList = [r] from rfl, lastMode_concat]
        simp [hm]

/-- The grouping loop keeps the emitted rows free of adjacent walking
rows, given the run invariants and well-formed shapes on the remaining
entries. -/
theorem segLoop_noConsec (table : List LineRow) (g : Graph) (wt : String → String → ℚ)
    (rest : List SKey) :
    ∀ (cs : Option String) (stops_ : List String) (segs : List Segment),
      stops_ ≠ [] →
      noConsecWalk segs = true →
      (cs = some "walking" → lastMode segs ≠ some "walking") →
      (cs ≠ some "walking" → segs = [] ∨
        ∃ s, cs = some s ∧ s ≠ "walking" ∧ (lookupLine table s).isSome) →
      (∀ p ∈ rest, shapeOkB table p.2 = true) →
      noConsecWalk (segLoop table g wt cs stops_ segs rest) = true := by
  induction rest with
  | nil =>
    intro cs stops_ segs hne hA hB hC _
    simp only [segLoop]
    have he : stops_.isEmpty = false := by
      cases stops_ with
      | nil => exact absurd rfl hne
      | cons a t => rfl
    rw [he]
    simp only [Bool.false_eq_true, if_false]
    exact (flush_invariants table g wt cs stops_ segs hne hA hB hC).1
  | cons p rest' ih =>
    intro cs stops_ segs hne hA hB hC hok
    obtain ⟨x, sh⟩ := p
    simp only [segLoop]
    by_cases hsh : sh = cs
    · rw [if_pos hsh]
      exact ih cs (stops_ ++ [x]) segs (by simp) hA hB hC
        (fun q hq => hok q (List.mem_cons_of_mem _ hq))
    · rw [if_neg hsh]
      have hokp : shapeOkB table sh = true := hok (x, sh) (List.mem_cons_self _ _)
      obtain ⟨flushA, flushC⟩ := flush_invariants table g wt cs stops_ segs hne hA hB hC
      -- the shape of the new run is a string: walking or a known line
      obtain ⟨s, rfl, hsok⟩ : ∃ s, sh = some s ∧
          (s = "walking" ∨ (lookupLine table s).isSome) := by
        cases sh with
        | none => simp [shapeOkB] at hokp
        | some s =>
          refine ⟨s, rfl, ?_⟩
          simp only [shapeOkB, Bool.or_eq_true, beq_iff_eq] at hokp
          rcases hokp with h | h
          · exact Or.inl h
          · exact Or.inr h
      apply ih (some s) [stops_.getLastD "", x] _ (by simp) flushA
      · intro hw
        have hcs : cs ≠ some "walking" := fun hc => hsh (hc ▸ hw)
        exact flushC hcs
      · intro hnw
        right
        refine ⟨s, rfl, ?_, ?_⟩
        · intro hc
          exact hnw (by rw [hc])
        · rcases hsok with h | h
          · exact absurd (by rw [h]) hnw
          · exact h
      · exact fun q hq => hok q (List.mem_cons_of_mem _ hq)

/-- Claim C9 counterexample: on a state path whose middle transit run
carries a shape missing from the line table, the segmenter silently drops
that run and emits two adjacent walking rows. -/
theorem c9_counterexample :
    ((getTransitSegmentsDf [] [] (fun _ _ => 0) path9).rows.map (fun s => s.mode))
      = ["walking", "walking"] ∧
    noConsecWalk (getTransitSegmentsDf [] [] (fun _ _ => 0) path9).rows = false := by
  refine ⟨by decide, by decide⟩

/-- Claim C9 (amended): provided every entry after the leading origin
entry carries a string shape that is either the walking sentinel or
present in the line table, the produced rows never contain two adjacent
walking segments. -/
theorem c9_amended_no_consecutive_walks (table : List LineRow) (g : Graph)
    (wt : String → String → ℚ) (path : List SKey)
    (hok : ∀ p ∈ path.tail, shapeOkB table p.2 = true) :
    noConsecWalk (getTransitSegmentsDf table g wt path).rows = true := by
  cases path with
  | nil => rfl
  | cons p0 rest =>
    obtain ⟨x0, sh0⟩ := p0
    simp only [getTransitSegmentsDf]
    apply segLoop_noConsec table g wt rest sh0 [x0] []
    · simp
    · rfl
    · intro _
      simp [lastMode]
    · intro _
      exact Or.inl rfl
    · simpa using hok

/-- Witness for the amended C9 on a well-formed virtual-origin path. -/
theorem c9_amended_witness :
    noConsecWalk (getTransitSegmentsDf T3 G3 (fun _ _ => 0)
      [("Real_Start", none), ("A", some "walking"), ("B", some "L1")]).rows = true :=
  c9_amended_no_consecutive_walks T3 G3 (fun _ _ => 0)
    [("Real_Start", none), ("A", some "walking"), ("B", some "L1")] (by decide)

theorem beyond_walk_iff (mwt : ℤ) (d2 : ℕ) :
    625 * mwt ^ 2 < 324 * (d2 : ℤ) ↔ (walkThreshold (mwt : ℚ)) ^ 2 < (d2 : ℚ) := by
  unfold walkThreshold
  rw [show ((mwt : ℚ) * (25 / 18)) ^ 2 = 625 * (mwt : ℚ) ^ 2 / 324 by ring,
    div_lt_iff₀ (by norm_num : (0 : ℚ) < 324)]
  constructor
  · intro h
    have h' : (625 * mwt ^ 2 : ℚ) < 324 * (d2 : ℚ) := by exact_mod_cast h
    linarith
  · intro h
    have h' : (625 * mwt ^ 2 : ℚ) < 324 * (d2 : ℚ) := by linarith
    exact_mod_cast h'

theorem walkTime_comm (p q : ℤ × ℤ) : walkTime p q = walkTime q p := by
  unfold walkTime
  rw [eudist_comm]

theorem inWalkRange_comm (mwt : ℤ) (p q : ℤ × ℤ) :
    inWalkRange mwt p q = inWalkRange mwt q p := by
  unfold inWalkRange
  rw [dist2_comm]

theorem mem_addAdjacentStops {stops : List StopRow} {e : Edge}
    (he : e ∈ addAdjacentStops stops) :
    ∃ s ∈ stops, ∃ nxt ∈ s.next_stops, ∃ a ∈ nxt.2,
      e = ⟨s.stop_id, nxt.1, a.weight, a.shape_id, a.frequency⟩ := by
  unfold addAdjacentStops at he
  rw [List.mem_flatMap] at he
  obtain ⟨s, hs, he⟩ := he
  rw [List.mem_flatMap] at he
  obtain ⟨nxt, hn, he⟩ := he
  rw [List.mem_map] at he
  obtain ⟨a, ha, he⟩ := he
  exact ⟨s, hs, nxt, hn, a, ha, he.symm⟩

theorem mem_addWalkingEdges {stops : List StopRow} {mwt : ℤ} {e : Edge}
    (he : e ∈ addWalkingEdges stops mwt) :
    ∃ i j s t, i ≠ j ∧ stops.get? i = some s ∧ stops.get? j = some t ∧
      inWalkRange mwt s.pos t.pos = true ∧
      e = ⟨s.stop_id, t.stop_id, walkTime s.pos t.pos, "walking", 0⟩ := by
  unfold addWalkingEdges at he
  rw [List.mem_flatMap] at he
  obtain ⟨i, _, he⟩ := he
  rw [List.mem_flatMap] at he
  obtain ⟨j, _, he⟩ := he
  by_cases hij : i = j
  · simp [hij] at he
  · rw [if_neg hij] at he
    cases hgi : stops.get? i with
    | none =>
      rw [hgi] at he
      simp at he
    | some s =>
      cases hgj : stops.get? j with
      | none =>
        rw [hgi, hgj] at he
        simp at he
      | some t =>
        rw [hgi, hgj] at he
        by_cases hr : inWalkRange mwt s.pos t.pos
        · simp only [hr, if_true] at he
          rcases List.mem_singleton.mp he with rfl
          exact ⟨i, j, s, t, hij, hgi, hgj, hr, rfl⟩
        · simp [hr] at he

theorem addWalkingEdges_mem {stops : List StopRow} {mwt : ℤ} {i j : ℕ}
    {s t : StopRow} (hi : stops.get? i = some s) (hj : stops.get? j = some t)
    (hij : i ≠ j) (hr : inWalkRange mwt s.pos t.pos = true) :
    (⟨s.stop_id, t.stop_id, walkTime s.pos t.pos, "walking", 0⟩ : Edge)
      ∈ addWalkingEdges stops mwt := by
  have hilen : i < stops.length := by
    rcases List.get?_eq_some.mp hi with ⟨h, _⟩
    exact h
  have hjlen : j < stops.length := by
    rcases List.get?_eq_some.mp hj with ⟨h, _⟩
    exact h
  unfold addWalkingEdges
  rw [List.mem_flatMap]
  refine ⟨i, List.mem_range.mpr hilen, ?_⟩
  rw [List.mem_flatMap]
  refine ⟨j, List.mem_range.mpr hjlen, ?_⟩
  rw [if_neg hij, hi, hj]
  simp [hr]

theorem in_walk_iff (mwt : ℤ) (d2 : ℕ) :
    324 * (d2 : ℤ) ≤ 625 * mwt ^ 2 ↔ (d2 : ℚ) ≤ (walkThreshold (mwt : ℚ)) ^ 2 := by
  have h := not_congr (beyond_walk_iff mwt d2)
  rw [not_lt, not_lt] at h
  exact h

/-- Claim C5: in the constructed transit graph every walking edge has
headway 0, joins two table stops whose Euclidean distance is within the
walking threshold, and has a reverse walking edge of identical weight;
and — provided the GTFS adjacency records carry positive headways and
never use the reserved shape name — every ride edge has strictly positive
headway. -/
theorem c5_graph_invariants (stops : List StopRow) (mwt : ℤ)
    (hride : ∀ s ∈ stops, ∀ nxt ∈ s.next_stops, ∀ a ∈ nxt.2,
        0 < a.frequency ∧ a.shape_id ≠ "walking") :
    ∀ e ∈ buildTransitGraph stops mwt,
      (e.shape_id = "walking" →
        e.frequency = 0 ∧
        (∃ s ∈ stops, ∃ t ∈ stops, s.stop_id = e.src ∧ t.stop_id = e.dst ∧
          (dist2 s.pos t.pos : ℚ) ≤ (walkThreshold (mwt : ℚ)) ^ 2) ∧
        ∃ e2 ∈ buildTransitGraph stops mwt, e2.src = e.dst ∧ e2.dst = e.src ∧
          e2.shape_id = "walking" ∧ e2.weight = e.weight) ∧
      (e.shape_id ≠ "walking" → 0 < e.frequency) := by
  intro e he
  rcases List.mem_append.mp he with hadj | hwalk
  · obtain ⟨s, hs, nxt, hn, a, ha, rfl⟩ := mem_addAdjacentStops hadj
    obtain ⟨hfreq, hsh⟩ := hride s hs nxt hn a ha
    exact ⟨fun hw => absurd hw hsh, fun _ => hfreq⟩
  · obtain ⟨i, j, s, t, hij, hgi, hgj, hr, rfl⟩ := mem_addWalkingEdges hwalk
    constructor
    · intro _
      refine ⟨rfl, ⟨s, List.get?_mem hgi, t, List.get?_mem hgj, rfl, rfl, ?_⟩, ?_⟩
      · exact (in_walk_iff mwt (dist2 s.pos t.pos)).mp
          ((decide_eq_true_eq).mp hr)
      · exact ⟨⟨t.stop_id, s.stop_id, walkTime t.pos s.pos, "walking", 0⟩,
          List.mem_append.mpr (Or.inr (addWalkingEdges_mem hgj hgi hij.symm
            ((inWalkRange_comm mwt s.pos t.pos) ▸ hr))), rfl, rfl, rfl,
          walkTime_comm t.pos s.pos⟩
    · intro hne
      exact absurd rfl hne

/-- Witness for C5: the concrete walking edge P -> Q of the two-stop
table, 100 m apart (72 s at 5 km/h). -/
theorem c5_graph_invariants_witness :
    (⟨"P", "Q", 72, "walking", 0⟩ : Edge).frequency = 0 ∧
    (∃ s ∈ c5Stops, ∃ t ∈ c5Stops,
      s.stop_id = (⟨"P", "Q", 72, "walking", 0⟩ : Edge).src ∧
      t.stop_id = (⟨"P", "Q", 72, "walking", 0⟩ : Edge).dst ∧
      (dist2 s.pos t.pos : ℚ) ≤ (walkThreshold ((300 : ℤ) : ℚ)) ^ 2) ∧
    ∃ e2 ∈ buildTransitGraph c5Stops 300,
      e2.src = (⟨"P", "Q", 72, "walking", 0⟩ : Edge).dst ∧
      e2.dst = (⟨"P", "Q", 72, "walking", 0⟩ : Edge).src ∧
      e2.shape_id = "walking" ∧ e2.weight = (⟨"P", "Q", 72, "walking", 0⟩ : Edge).weight :=
  (c5_graph_invariants c5Stops 300 (by decide) ⟨"P", "Q", 72, "walking", 0⟩
    (by decide)).1 rfl

/-- Claim C7: the boarding set is non-empty, starts with the nearest stop
paired with its walk duration, and degenerates to exactly that singleton
when the nearest stop lies beyond the walking-distance threshold. -/
theorem c7_boarding_set (stops : List Stop) (start : ℤ × ℤ) (mwt : ℤ)
    (hne : stops ≠ []) :
    ∃ ns rest, nearestStopRow stops start = some ns ∧
      getStartWalkingEdges stops start mwt
        = some ((ns.stop_id, walkTime start ns.pos) :: rest) ∧
      ((walkThreshold (mwt : ℚ)) ^ 2 < (dist2 start ns.pos : ℚ) → rest = []) := by
  cases hnr : nearestStopRow stops start with
  | none => exact absurd ((nearestStopRow_nil_iff stops start).mp hnr) hne
  | some ns =>
    by_cases hth : 625 * mwt ^ 2 < 324 * (dist2 start ns.pos : ℤ)
    · refine ⟨ns, [], rfl, ?_, fun _ => rfl⟩
      simp [getStartWalkingEdges, hnr, hth]
    · refine ⟨ns,
        (stops.filter (fun s =>
          inWalkRange mwt start s.pos && s.stop_id != ns.stop_id)).map
          (fun s => (s.stop_id, walkTime start s.pos)), rfl, ?_, ?_⟩
      · simp [getStartWalkingEdges, hnr, hth]
      · intro hq
        exact absurd ((beyond_walk_iff mwt (dist2 start ns.pos)).mpr hq) hth

/-- Witness for C7 at a concrete two-stop table. -/
theorem c7_boarding_set_witness :
    ∃ ns rest, nearestStopRow stops3 (0, 0) = some ns ∧
      getStartWalkingEdges stops3 (0, 0) 300
        = some ((ns.stop_id, walkTime (0, 0) ns.pos) :: rest) ∧
      ((walkThreshold ((300 : ℤ) : ℚ)) ^ 2 < (dist2 (0, 0) ns.pos : ℚ) → rest = []) :=
  c7_boarding_set stops3 (0, 0) 300 (by decide)

/-- Claim C8 counterexample: with both points snapping to the single
pedestrian node at (0, 5), the router returns the polyline through the
snapped node with stub-summed duration 19 s, not the straight line
`[p1, p2]` of duration 12 s demanded by the claim. -/
theorem c8_counterexample :
    routeWalking (fun _ => "n") (fun _ => (0, 5)) (fun _ _ => true) (fun _ _ => [])
      (fun _ _ => 0) (0, 0) (10, 0) = ([(0, 0), (0, 5), (0, 5), (10, 0)], 19) ∧
    specWalkFallback (0, 0) (10, 0) = ([(0, 0), (10, 0)], 12) ∧
    ((([(0, 0), (0, 5), (0, 5), (10, 0)], 19) : List (ℤ × ℤ) × ℤ)
      ≠ ([(0, 0), (10, 0)], 12)) := by
  refine ⟨by decide, by decide, by decide⟩

/-- Claim C8 (amended): when the snapped nodes coincide or no path joins
them, the router returns the four-point polyline origin → snapped node →
snapped node → destination, and the duration is the sum of the 3 km/h
stub times (plus, in the no-path case, the 3 km/h straight hop between
the two snapped nodes) — not the straight-line time between the input
points. -/
theorem c8_amended_walk_fallback (nn : ℤ × ℤ → String) (np : String → ℤ × ℤ)
    (hp : String → String → Bool) (sn : String → String → List String)
    (sl : String → String → ℤ) (p1 p2 : ℤ × ℤ)
    (hcond : nn p1 = nn p2 ∨ hp (nn p1) (nn p2) = false) :
    routeWalking nn np hp sn sl p1 p2 =
      ([p1, np (nn p1), np (nn p2), p2],
        pyRound (6 * eudist p1 (np (nn p1))) 5
          + (if nn p1 = nn p2 then 0
             else pyRound (6 * eudist (np (nn p1)) (np (nn p2))) 5)
          + pyRound (6 * eudist (np (nn p2)) p2) 5) := by
  unfold routeWalking
  by_cases h12 : nn p1 = nn p2
  · simp [h12]
  · have hpf : hp (nn p1) (nn p2) = false := hcond.resolve_left h12
    simp [h12, hpf]

/-- Witness for the amended C8 at the counterexample inputs. -/
theorem c8_amended_walk_fallback_witness :
    routeWalking (fun _ => "n") (fun _ => ((0 : ℤ), (5 : ℤ))) (fun _ _ => true)
      (fun _ _ => []) (fun _ _ => 0) (0, 0) (10, 0)
      = ([(0, 0), (0, 5), (0, 5), (10, 0)], 19) :=
  (c8_amended_walk_fallback (fun _ => "n") (fun _ => ((0 : ℤ), (5 : ℤ)))
      (fun _ _ => true) (fun _ _ => []) (fun _ _ => 0) (0, 0) (10, 0)
      (Or.inl rfl)).trans (by decide)

/-- Witness for the amended C6 at the counterexample table. -/
theorem c6_amended_nearest_witness :
    (⟨"B", (0, 0)⟩ : Stop) ∈ c6Stops ∧
    (∀ t ∈ c6Stops, dist2 (0, 0) (⟨"B", (0, 0)⟩ : Stop).pos ≤ dist2 (0, 0) t.pos) ∧
    ∃ pre post, c6Stops = pre ++ (⟨"B", (0, 0)⟩ : Stop) :: post ∧
      ∀ t ∈ pre, dist2 (0, 0) (⟨"B", (0, 0)⟩ : Stop).pos < dist2 (0, 0) t.pos :=
  c6_amended_nearest c6Stops (0, 0) ⟨"B", (0, 0)⟩ (by decide)

end MapApp
